import Mathlib

/-!
Verification development for the `vscode-problems-filtering` CLI
(`src/problem.rs`, `src/main.rs`).

Modelling conventions:
* A Rust `String` is modelled as a `List Char` (its sequence of Unicode
  scalar values).  `String.data` turns a Lean literal into this model.
* Rust byte indexing is modelled through `Char.utf8Size`: `byteLen`
  is `String::len` (UTF-8 byte count), and `takeBytes n s` models the
  slice `&s[..n]`, which PANICS when `n` is not a character boundary
  (or exceeds the length) — modelled as `none`.
* `serde_json::Value` is modelled by `JsonValue` with numbers as
  unbounded integers (fractional JSON numbers never decode to `u32`
  and are outside the claims considered, so they are not represented).
* `serde_json::from_str::<Vec<Problem>>` is modelled as text → value
  parsing (external crate, not modelled) followed by `decodeProblems`,
  the derived `Deserialize` semantics of `Vec<Problem>`:
  top level must be an array; each element must be an object with a
  string `resource`, a `u32` `startLineNumber` and a string `message`;
  all remaining fields are collected into the `#[serde(flatten)]`
  field `_other` as an object.
* Fallible / panicking operations return `Option`; `run_app` returns
  `Option (Except error output)` where `none` is a panic, `Except.error`
  the `anyhow::Result` error path and `Except.ok` the accumulated
  bytes written to the injected writer.
-/

/-- Model of `serde_json::Value` (object keys in insertion order;
numbers as unbounded integers, see the module comment). -/
inductive JsonValue where
  | null : JsonValue
  | bool (b : Bool) : JsonValue
  | num (n : Int) : JsonValue
  | str (s : List Char) : JsonValue
  | arr (elems : List JsonValue) : JsonValue
  | obj (fields : List (List Char × JsonValue)) : JsonValue

/-- `src/problem.rs`: `struct Problem` — the input record.
`start_line_number` is a `u32`; decoding enforces the `u32` range,
so the field is carried as a `Nat`. -/
structure Problem where
  resource : List Char
  start_line_number : Nat
  message : List Char
  _other : JsonValue

/-- `src/problem.rs`: `struct ProblemOutput` — the display record. -/
structure ProblemOutput where
  resource : List Char
  message : List Char
  line : Nat

/-- `str::rfind(c)`: index of the last occurrence of `c`.  The Rust
function returns a byte index; since it is only ever called with `'/'`
(a 1-byte ASCII character) every returned index and every slice taken
at such an index sits on a character boundary, so the character-index
model used here coincides with the byte-index behaviour of the source. -/
def rfind (c : Char) : List Char → Option Nat
  | [] => none
  | x :: xs =>
    match rfind c xs with
    | some i => some (i + 1)
    | none => if x = c then some 0 else none

/-- The resource-truncation part of `ProblemOutput::new`
(`src/problem.rs` lines 37–48): keep the text after the last `'/'`,
together with the text between the last two `'/'` when a second `'/'`
exists; otherwise (no `'/'` at all) keep the resource unchanged. -/
def truncate_resource (r : List Char) : List Char :=
  match rfind '/' r with
  | some pos =>
    let filename := r.drop (pos + 1)
    match rfind '/' (r.take pos) with
    | some parent_pos => ((r.take pos).drop (parent_pos + 1)) ++ '/' :: filename
    | none => filename
  | none => r

/-- `String::len` of the Rust source: the UTF-8 byte length. -/
def byteLen (s : List Char) : Nat := (s.map Char.utf8Size).foldr (· + ·) 0

/-- Model of the byte slice `&s[..n]`: the prefix of `s` whose UTF-8
encoding is exactly `n` bytes, or `none` when `n` is out of range or
falls inside a multi-byte character — the cases where Rust panics. -/
def takeBytes (n : Nat) (s : List Char) : Option (List Char) :=
  match s with
  | [] => if n = 0 then some [] else none
  | c :: cs =>
    if n = 0 then some []
    else if c.utf8Size ≤ n then (takeBytes (n - c.utf8Size) cs).map (fun t => c :: t)
    else none

/-- The message-truncation part of `ProblemOutput::new`
(`src/problem.rs` lines 51–55): when the byte length exceeds 150,
format the first 147 BYTES followed by `"..."`; `none` models the
panic of `&message[..147]` on a non-boundary index. -/
def truncate_message (m : List Char) : Option (List Char) :=
  if byteLen m > 150 then (takeBytes 147 m).map (fun t => t ++ "...".data)
  else some m

/-- `src/problem.rs`: `ProblemOutput::new` — `none` models a panic. -/
def ProblemOutput.new (problem : Problem) : Option ProblemOutput :=
  (truncate_message problem.message).map (fun msg =>
    ⟨truncate_resource problem.resource, msg, problem.start_line_number⟩)

/-- Model of `str::to_lowercase`, applied characterwise.  (Rust's full
Unicode case mapping can expand special characters to several; the
two agree on ASCII, and no claim depends on the folding of a specific
character — only on the same folding being applied to haystack and
needles.) -/
def toLowercase (s : List Char) : List Char := s.map Char.toLower

/-- `needle.isPrefixOfSub hay`: Boolean prefix test, the building block
of `str::contains`. -/
def isPrefixOfSub : List Char → List Char → Bool
  | [], _ => true
  | _ :: _, [] => false
  | c :: cs, h :: hs => c = h && isPrefixOfSub cs hs

/-- Model of `str::contains(needle)` — literal substring search.
(On valid UTF-8, byte-level substring occurrence coincides with
character-level occurrence, UTF-8 being self-synchronising, so the
character model is faithful.) -/
def containsSub (hay needle : List Char) : Bool :=
  match hay with
  | [] => needle.isEmpty
  | _ :: t => isPrefixOfSub needle hay || containsSub t needle

/-- `src/main.rs`: `struct CliProblemApp` — the parsed CLI options. -/
structure CliProblemApp where
  input : List Char
  include_terms : List (List Char)
  exclude_terms : List (List Char)
  ignore_case : Bool
  count_only : Bool
  json : Bool

/-- `src/main.rs` lines 46–74: `CliProblemApp::filter_problem`. -/
def CliProblemApp.filter_problem (self : CliProblemApp) (problem : Problem) : Bool :=
  let message := if self.ignore_case then toLowercase problem.message else problem.message
  let all_include_present := self.include_terms.all (fun term =>
    let search_term := if self.ignore_case then toLowercase term else term
    containsSub message search_term)
  let no_exclude_present := self.exclude_terms.all (fun term =>
    let search_term := if self.ignore_case then toLowercase term else term
    !(containsSub message search_term))
  all_include_present && no_exclude_present

/-- JSON object field lookup, as serde's derived deserializer consumes
named fields (first occurrence; duplicate keys are outside the model). -/
def getField (key : List Char) : List (List Char × JsonValue) → Option JsonValue
  | [] => none
  | kv :: rest => if kv.1 = key then some kv.2 else getField key rest

def resourceKey : List Char := "resource".data

def startLineKey : List Char := "startLineNumber".data

def messageKey : List Char := "message".data

/-- The fields left over for the `#[serde(flatten)] _other` capture. -/
def otherFields (fields : List (List Char × JsonValue)) : List (List Char × JsonValue) :=
  fields.filter (fun kv => kv.1 ≠ resourceKey && kv.1 ≠ startLineKey && kv.1 ≠ messageKey)

/-- Derived `Deserialize` of one `Problem` (`src/problem.rs` lines 5–18):
an object with a string `resource`, an integer `startLineNumber` in the
`u32` range and a string `message`; every other field is collected into
`_other`. -/
def decodeProblem (j : JsonValue) : Option Problem :=
  match j with
  | JsonValue.obj fields =>
    match getField resourceKey fields, getField startLineKey fields,
          getField messageKey fields with
    | some (JsonValue.str r), some (JsonValue.num n), some (JsonValue.str m) =>
      if 0 ≤ n ∧ n < 4294967296 then
        some ⟨r, n.toNat, m, JsonValue.obj (otherFields fields)⟩
      else none
    | _, _, _ => none
  | _ => none

/-- Derived `Deserialize` of `Vec<Problem>` applied to the elements:
sequential, all-or-nothing. -/
def decodeProblemList : List JsonValue → Option (List Problem)
  | [] => some []
  | e :: es =>
    match decodeProblem e, decodeProblemList es with
    | some p, some ps => some (p :: ps)
    | _, _ => none

/-- `serde_json::from_str::<Vec<Problem>>` at the value level
(`src/main.rs` lines 107–108): the top-level value must be an array. -/
def decodeProblems (j : JsonValue) : Option (List Problem) :=
  match j with
  | JsonValue.arr es => decodeProblemList es
  | _ => none

/-- `problems.iter().filter(..).map(ProblemOutput::new).collect()` over
an already-filtered list: `none` when some `ProblemOutput::new` panics. -/
def collectOutputs : List Problem → Option (List ProblemOutput)
  | [] => some []
  | p :: ps =>
    match ProblemOutput.new p, collectOutputs ps with
    | some o, some os => some (o :: os)
    | _, _ => none

def lbrace : Char := Char.ofNat 123

def rbrace : Char := Char.ofNat 125

/-- Decimal rendering of an unsigned integer, as both `serde_json` and
`Display` for `u32` produce it. -/
def natChars (n : Nat) : List Char := (Nat.repr n).data

/-- `str::join(sep)` over a list of strings. -/
def joinSep (sep : List Char) : List (List Char) → List Char
  | [] => []
  | [x] => x
  | x :: xs => x ++ sep ++ joinSep sep xs

/-- `serde_json`'s JSON string escaping: `"`, `\` and control
characters are escaped, everything else is written as-is. -/
def escapeChar (c : Char) : List Char :=
  if c = '"' then ['\\', '"']
  else if c = '\\' then ['\\', '\\']
  else if c = Char.ofNat 8 then ['\\', 'b']
  else if c = Char.ofNat 9 then ['\\', 't']
  else if c = Char.ofNat 10 then ['\\', 'n']
  else if c = Char.ofNat 12 then ['\\', 'f']
  else if c = Char.ofNat 13 then ['\\', 'r']
  else if c.toNat < 32 then
    ['\\', 'u', '0', '0', (Nat.digitChar (c.toNat / 16)), (Nat.digitChar (c.toNat % 16))]
  else [c]

def escapeString (s : List Char) : List Char :=
  (s.map escapeChar).foldr (· ++ ·) []

/-- One pretty-printed object of the output array, in the derived
`Serialize` field order of `ProblemOutput`: `resource`, `message`,
`line` (`src/problem.rs` lines 21–32), with `serde_json`'s two-space
indentation. -/
def outputObjectPretty (o : ProblemOutput) : List Char :=
  [' ', ' ', lbrace, '\n'] ++
  "    \"resource\": \"".data ++ escapeString o.resource ++ "\",\n".data ++
  "    \"message\": \"".data ++ escapeString o.message ++ "\",\n".data ++
  "    \"line\": ".data ++ natChars o.line ++ ['\n'] ++
  [' ', ' ', rbrace]

/-- `serde_json::to_string_pretty` of the survivor vector. -/
def toStringPretty (outs : List ProblemOutput) : List Char :=
  match outs with
  | [] => "[]".data
  | _ => "[\n".data ++ joinSep ",\n".data (outs.map outputObjectPretty) ++ "\n]".data

/-- Modelled from the spec: the human-mode table is produced by the
external `tabled` crate (`Table::new`, not part of src/); the spec only
requires "a tabular rendering of the survivor sequence with column
headers Resource, Message, Line".  No claim depends on its exact text,
so a simple rendering with that header and one row per record stands in
for it. -/
def renderTable (outs : List ProblemOutput) : List Char :=
  "Resource | Message | Line".data ++
  (outs.map (fun o =>
    '\n' :: (o.resource ++ " | ".data ++ o.message ++ " | ".data ++ natChars o.line))).foldr
    (· ++ ·) []

def validationMsg : List Char :=
  "Au moins un terme d'inclusion ou d'exclusion doit être spécifié".data

/-- The human-readable prefix the driver wraps around parse failures
(`with_context`); the underlying serde error text is external-crate
output and is not modelled. -/
def parseErrorMsg : List Char := "Erreur lors du parsing du JSON".data

/-- The human-readable report of `run_app` (`src/main.rs` lines
124–156): counts, optional term/case lines, then (unless `count_only`)
either the fixed no-match line or the table. -/
def humanOutput (cli : CliProblemApp) (total : Nat) (filtered : List ProblemOutput) :
    List Char :=
  let l1 := "Nombre total de problèmes: ".data ++ natChars total ++ ['\n']
  let l2 := if cli.include_terms.isEmpty then [] else
    "Termes à inclure: ".data ++ joinSep ", ".data cli.include_terms ++ ['\n']
  let l3 := if cli.exclude_terms.isEmpty then [] else
    "Termes à exclure: ".data ++ joinSep ", ".data cli.exclude_terms ++ ['\n']
  let l4 := if cli.ignore_case then "Mode insensible à la casse activé".data ++ ['\n'] else []
  let l6 := "Nombre de problèmes filtrés: ".data ++ natChars filtered.length ++ ['\n']
  let head := l1 ++ l2 ++ l3 ++ l4 ++ ['\n'] ++ l6
  if cli.count_only then head
  else head ++ ['\n'] ++
    (if filtered.isEmpty then
      "Aucun problème ne correspond aux critères de filtrage.".data ++ ['\n']
    else renderTable filtered ++ ['\n'])

/-- `src/main.rs` lines 90–158: `run_app`.  The injected reader is
modelled by its outcome `readResult` (already carrying the
`Impossible de lire le fichier` context added in `main`), itself the
text already parsed to a `JsonValue` (see the module comment); the
injected writer by the returned output text.  `none` models a panic
(reachable only from `ProblemOutput::new`), `some (Except.error e)` the
`anyhow` error path, `some (Except.ok out)` a successful run that wrote
`out`. -/
def run_app (cli : CliProblemApp) (readResult : Except (List Char) JsonValue) :
    Option (Except (List Char) (List Char)) :=
  if cli.include_terms.isEmpty && cli.exclude_terms.isEmpty then
    some (Except.error validationMsg)
  else
    match readResult with
    | Except.error e => some (Except.error e)
    | Except.ok j =>
      match decodeProblems j with
      | none => some (Except.error parseErrorMsg)
      | some problems =>
        match collectOutputs (problems.filter cli.filter_problem) with
        | none => none
        | some filtered_problems =>
          if cli.json then
            some (Except.ok (toStringPretty filtered_problems ++ ['\n']))
          else
            some (Except.ok (humanOutput cli problems.length filtered_problems))

/-! ## Substring search: `containsSub` decides `List.IsInfix` -/

theorem isPrefixOfSub_iff (needle hay : List Char) :
    isPrefixOfSub needle hay = true ↔ needle <+: hay := by
  induction needle generalizing hay with
  | nil => simp [isPrefixOfSub]
  | cons c cs ih =>
    cases hay with
    | nil => simp [isPrefixOfSub]
    | cons h hs => simp [isPrefixOfSub, ih, List.cons_prefix_cons]

theorem containsSub_iff (hay needle : List Char) :
    containsSub hay needle = true ↔ needle <:+: hay := by
  induction hay with
  | nil => simp [containsSub]
  | cons h t ih => simp [containsSub, isPrefixOfSub_iff, ih, List.infix_cons_iff]

theorem containsSub_eq_false_iff (hay needle : List Char) :
    containsSub hay needle = false ↔ ¬ needle <:+: hay := by
  rw [Bool.eq_false_iff]
  exact not_congr (containsSub_iff hay needle)

theorem containsSub_nil_needle (hay : List Char) : containsSub hay [] = true := by
  cases hay <;> simp [containsSub, isPrefixOfSub]

/-- C3: for every record, every `includeTerms` list, every
`excludeTerms` list and both settings of `ignoreCase`, the filter
predicate returns `true` iff every include term is a substring of the
haystack and no exclude term is, where the haystack is the message
lower-cased exactly when `ignoreCase` is set and every term is
lower-cased the same way; each side is vacuously true on an empty term
list (the universal quantifications over members), and the function is
total by construction (it returns a `Bool`, with no `Option`/panic
branch). -/
theorem filter_problem_iff (cli : CliProblemApp) (p : Problem) :
    cli.filter_problem p = true ↔
      ((∀ t ∈ cli.include_terms,
          (if cli.ignore_case then toLowercase t else t) <:+:
            (if cli.ignore_case then toLowercase p.message else p.message)) ∧
       (∀ t ∈ cli.exclude_terms,
          ¬ ((if cli.ignore_case then toLowercase t else t) <:+:
            (if cli.ignore_case then toLowercase p.message else p.message)))) := by
  simp [CliProblemApp.filter_problem, containsSub_iff, containsSub_eq_false_iff]

/-- C10: an empty-string term behaves as a universal substring: an
empty string among the exclude terms makes the filter reject every
record, and an empty string among the include terms imposes no
constraint (removing it leaves the predicate unchanged). -/
theorem filter_problem_empty_term (p : Problem) :
    (∀ cli : CliProblemApp, [] ∈ cli.exclude_terms → cli.filter_problem p = false) ∧
    (∀ (inp : List Char) (l1 l2 exc : List (List Char)) (ic co js : Bool),
      CliProblemApp.filter_problem ⟨inp, l1 ++ [] :: l2, exc, ic, co, js⟩ p =
        CliProblemApp.filter_problem ⟨inp, l1 ++ l2, exc, ic, co, js⟩ p) := by
  constructor
  · intro cli hmem
    rw [Bool.eq_false_iff]
    intro hcontra
    rcases (filter_problem_iff cli p).mp hcontra with ⟨_, hexc⟩
    have := hexc [] hmem
    cases h : cli.ignore_case <;> rw [h] at this <;> simp [toLowercase] at this
  · intro inp l1 l2 exc ic co js
    simp [CliProblemApp.filter_problem, toLowercase, containsSub_nil_needle]

/-- Witness for `filter_problem_empty_term` at a concrete record. -/
theorem filter_problem_empty_term_witness :
    CliProblemApp.filter_problem ⟨"x".data, [], [[]], false, false, false⟩
      ⟨"r".data, 1, "msg".data, JsonValue.null⟩ = false ∧
    CliProblemApp.filter_problem ⟨"x".data, ["a".data] ++ [] :: ["b".data], [], true, false, false⟩
      ⟨"r".data, 1, "msg".data, JsonValue.null⟩ =
      CliProblemApp.filter_problem ⟨"x".data, ["a".data] ++ ["b".data], [], true, false, false⟩
        ⟨"r".data, 1, "msg".data, JsonValue.null⟩ :=
  ⟨(filter_problem_empty_term _).1 _ (by simp),
   (filter_problem_empty_term _).2 "x".data ["a".data] ["b".data] [] true false false⟩

/-! ## Message truncation (claims C1, C4) -/

set_option maxRecDepth 8000

/-- C1 (code bug): the transform is NOT total and NOT character-based.
On the 100-character message `é` repeated 100 times (200 UTF-8 bytes),
`ProblemOutput::new` compares the BYTE length 200 against 150 and
byte-slices at index 147, which falls inside the 74th two-byte
character: the slice panics (`none`), while the claim demands a total,
character-counted truncation that would leave this 100-character
message unchanged. -/
theorem problem_output_new_panics_on_multibyte :
    ProblemOutput.new ⟨"file.txt".data, 1, List.replicate 100 'é', JsonValue.null⟩ = none ∧
    (List.replicate 100 'é').length = 100 := by
  exact ⟨rfl, by simp⟩

/-- C4 (code bug): truncation counts bytes, not characters.
The 150-character message `é` followed by 149 `a` (151 UTF-8 bytes) is
truncated by the code to 149 characters ending in `"..."`, while the
claim says a message of at most 150 characters is left unchanged. -/
theorem problem_output_new_truncates_by_bytes :
    ProblemOutput.new ⟨"file.txt".data, 1, 'é' :: List.replicate 149 'a', JsonValue.null⟩ =
      some ⟨"file.txt".data, ('é' :: List.replicate 145 'a') ++ "...".data, 1⟩ ∧
    ('é' :: List.replicate 149 'a').length = 150 ∧
    ('é' :: List.replicate 145 'a') ++ "...".data ≠ 'é' :: List.replicate 149 'a' := by
  refine ⟨rfl, by simp, ?_⟩
  intro h
  have := congrArg List.length h
  simp at this

/-! ## Resource truncation (claim C5) -/

/-- `str::split('/')` at the character level, used only to word claim
C5's "last two `/`-separated path segments". -/
def splitSlash : List Char → List (List Char)
  | [] => [[]]
  | c :: cs =>
    if c = '/' then [] :: splitSlash cs
    else
      match splitSlash cs with
      | [] => [[c]]
      | s :: rest => (c :: s) :: rest

/-- Claim C5's description of the transform, taken at its words: keep
the filename (last segment) plus the immediate parent directory
(second-to-last segment) whenever the path has one, i.e. whenever the
resource contains a `'/'`; carry the resource over unchanged
otherwise. -/
def claimResource (r : List Char) : List Char :=
  match (splitSlash r).reverse with
  | filename :: parent :: _ => parent ++ '/' :: filename
  | _ => r

/-- C5 counterexample: on `"a/c.txt"` the code keeps only `"c.txt"`,
dropping the existing immediate parent directory `"a"`, while the
claim ("filename plus immediate parent directory, if any") keeps
`"a/c.txt"`. -/
theorem truncate_resource_cex :
    truncate_resource "a/c.txt".data = "c.txt".data ∧
    claimResource "a/c.txt".data = "a/c.txt".data ∧
    "c.txt".data ≠ "a/c.txt".data := by
  exact ⟨rfl, rfl, by decide⟩

theorem rfind_eq_none (c : Char) (s : List Char) (h : c ∉ s) : rfind c s = none := by
  induction s with
  | nil => rfl
  | cons x xs ih =>
    simp only [List.mem_cons, not_or] at h
    simp [rfind, ih h.2, Ne.symm h.1]

theorem rfind_append_cons (c : Char) (u v : List Char) (h : c ∉ v) :
    rfind c (u ++ c :: v) = some u.length := by
  induction u with
  | nil => simp [rfind, rfind_eq_none c v h]
  | cons x u ih => simp [rfind, ih]

theorem drop_append_cons (u v : List Char) (c : Char) :
    (u ++ c :: v).drop (u.length + 1) = v := by
  rw [show u ++ c :: v = (u ++ [c]) ++ v by simp]
  exact List.drop_left' (by simp)

/-- C5 amended: the code keeps the last two `/`-separated segments only
when the resource contains at least two `'/'`; with exactly one `'/'`
it keeps only the filename, dropping the parent; with no `'/'` the
resource is carried over unchanged.  (The three spec examples all fall
in the first and third cases and still hold.) -/
theorem truncate_resource_amended :
    (∀ r : List Char, '/' ∉ r → truncate_resource r = r) ∧
    (∀ u v : List Char, '/' ∉ u → '/' ∉ v →
      truncate_resource (u ++ '/' :: v) = v) ∧
    (∀ t u v : List Char, '/' ∉ u → '/' ∉ v →
      truncate_resource (t ++ '/' :: u ++ '/' :: v) = u ++ '/' :: v) := by
  refine ⟨?_, ?_, ?_⟩
  · intro r h
    simp [truncate_resource, rfind_eq_none _ _ h]
  · intro u v hu hv
    have h1 : rfind '/' (u ++ '/' :: v) = some u.length := rfind_append_cons _ _ _ hv
    simp only [truncate_resource, h1, List.take_left, rfind_eq_none _ _ hu,
      drop_append_cons]
  · intro t u v hu hv
    have heq : t ++ '/' :: u ++ '/' :: v = (t ++ '/' :: u) ++ '/' :: v := by simp
    rw [heq]
    have h1 : rfind '/' ((t ++ '/' :: u) ++ '/' :: v) = some (t ++ '/' :: u).length :=
      rfind_append_cons _ _ _ hv
    have h2 : rfind '/' (t ++ '/' :: u) = some t.length := rfind_append_cons _ _ _ hu
    simp only [truncate_resource, h1, List.take_left, h2, drop_append_cons]

/-- Witness for `truncate_resource_amended`: the spec's own examples
`"a/b/c.txt" → "b/c.txt"` and a one-slash path. -/
theorem truncate_resource_amended_witness :
    truncate_resource ("a".data ++ '/' :: "b".data ++ '/' :: "c.txt".data) =
      "b".data ++ '/' :: "c.txt".data ∧
    truncate_resource ("c".data ++ '/' :: "d.txt".data) = "d.txt".data :=
  ⟨truncate_resource_amended.2.2 "a".data "b".data "c.txt".data (by decide) (by decide),
   truncate_resource_amended.2.1 "c".data "d.txt".data (by decide) (by decide)⟩

/-! ## Decoding (claim C2) -/

/-- The element shape that decodes successfully — the right-hand side
of claim C2 as amended: an object whose `resource` and `message` are
strings and whose `startLineNumber` is an integer within the `u32`
range `[0, 4294967295]`. -/
def ElemOk (j : JsonValue) : Prop :=
  ∃ fields r n m, j = JsonValue.obj fields ∧
    getField resourceKey fields = some (JsonValue.str r) ∧
    getField startLineKey fields = some (JsonValue.num n) ∧
    0 ≤ n ∧ n < 4294967296 ∧
    getField messageKey fields = some (JsonValue.str m)

theorem decodeProblem_isSome_iff (j : JsonValue) :
    (decodeProblem j).isSome = true ↔ ElemOk j := by
  constructor
  · intro h
    cases j with
    | obj fields =>
      simp only [decodeProblem] at h
      split at h
      next r n m h1 h2 h3 =>
        split at h
        next hb => exact ⟨fields, r, n, m, rfl, h1, h2, hb.1, hb.2, h3⟩
        next => simp at h
      next => simp at h
    | null => simp [decodeProblem] at h
    | bool b => simp [decodeProblem] at h
    | num n => simp [decodeProblem] at h
    | str s => simp [decodeProblem] at h
    | arr es => simp [decodeProblem] at h
  · rintro ⟨fields, r, n, m, rfl, h1, h2, hlo, hhi, h3⟩
    simp [decodeProblem, h1, h2, h3, hlo, hhi]

theorem decodeProblemList_isSome_iff (es : List JsonValue) :
    (decodeProblemList es).isSome = true ↔ ∀ e ∈ es, ElemOk e := by
  induction es with
  | nil => simp [decodeProblemList]
  | cons e es ih =>
    have hsplit : (decodeProblemList (e :: es)).isSome =
        ((decodeProblem e).isSome && (decodeProblemList es).isSome) := by
      cases h1 : decodeProblem e <;> cases h2 : decodeProblemList es <;>
        simp [decodeProblemList, h1, h2]
    rw [hsplit]
    simp [Bool.and_eq_true, decodeProblem_isSome_iff, ih]

/-- C2 amended: decoding fails as a whole (the result is a single
`Option` over the full list, so no partial list can be produced) iff
the top-level value is not an array, or some element is missing one of
`resource`, `startLineNumber`, `message`, has a wrong primitive type
for one of them, or has a `startLineNumber` outside the `u32` range;
equivalently, decoding succeeds iff the top level is an array and
every element is an object with string `resource` and `message` and an
integer `startLineNumber` in `[0, 4294967295]`.  (The original claim's
"any non-negative integer (no enforced upper bound)" fails: the `u32`
field enforces an upper bound, see `decodeProblems_cex`.) -/
theorem decodeProblems_isSome_iff (j : JsonValue) :
    (decodeProblems j).isSome = true ↔
      ∃ es, j = JsonValue.arr es ∧ ∀ e ∈ es, ElemOk e := by
  cases j <;> simp [decodeProblems, decodeProblemList_isSome_iff]

/-- C2 counterexample: an array element carrying a string `resource`, a
string `message` and the NON-NEGATIVE integer `startLineNumber`
`4294967296 = 2^32` is rejected — decoding the whole document fails,
where the claim ("any non-negative integer, no enforced upper bound")
says it succeeds. -/
theorem decodeProblems_cex :
    decodeProblems (JsonValue.arr [JsonValue.obj
      [(resourceKey, JsonValue.str "a".data),
       (startLineKey, JsonValue.num 4294967296),
       (messageKey, JsonValue.str "m".data)]]) = none ∧
    (0 : Int) ≤ 4294967296 := ⟨rfl, by decide⟩

/-! ## The driver (claims C6–C9) -/

/-- C6: when both `includeTerms` and `excludeTerms` are empty, the run
fails with the validation error for EVERY reader outcome — the result
does not depend on the injected reader's result at all, which is the
observable content of "the injected reader is never invoked; the
error is reported before any I/O". -/
theorem run_app_validation_first (cli : CliProblemApp)
    (readResult : Except (List Char) JsonValue) :
    cli.include_terms = [] → cli.exclude_terms = [] →
    run_app cli readResult = some (Except.error validationMsg) := by
  intro h1 h2
  simp [run_app, h1, h2]

/-- Witness for `run_app_validation_first`. -/
theorem run_app_validation_first_witness :
    run_app ⟨"x.json".data, [], [], false, false, false⟩
      (Except.ok (JsonValue.arr [])) = some (Except.error validationMsg) :=
  run_app_validation_first _ _ rfl rfl

theorem filter_problem_count_only_fun (cli : CliProblemApp) (b : Bool) :
    CliProblemApp.filter_problem { cli with count_only := b } =
      cli.filter_problem := rfl

/-- C7: on a successful run with the `json` flag set, the driver's
whole output is `toStringPretty` of the survivor sequence — the
pretty-printed serialization in the derived field order `resource`,
`message`, `line` — followed by one trailing newline, and nothing
else; and the result is identical for both settings of `count_only`,
which the JSON branch ignores entirely. -/
theorem run_app_json_branch (cli : CliProblemApp) (j : JsonValue)
    (ps : List Problem) (outs : List ProblemOutput) :
    cli.json = true →
    (cli.include_terms.isEmpty && cli.exclude_terms.isEmpty) = false →
    decodeProblems j = some ps →
    collectOutputs (ps.filter cli.filter_problem) = some outs →
    run_app cli (Except.ok j) = some (Except.ok (toStringPretty outs ++ ['\n'])) ∧
    (∀ b, run_app { cli with count_only := b } (Except.ok j) =
      run_app cli (Except.ok j)) := by
  intro hjson hv hdec hout
  have hrun : run_app cli (Except.ok j) =
      some (Except.ok (toStringPretty outs ++ ['\n'])) := by
    simp [run_app, hv, hdec, hout, hjson]
  refine ⟨hrun, fun b => ?_⟩
  have hout' : collectOutputs
      (ps.filter (CliProblemApp.filter_problem { cli with count_only := b })) =
      some outs := by
    rw [filter_problem_count_only_fun]; exact hout
  simp only [hjson] at hout'
  have : run_app { cli with count_only := b } (Except.ok j) =
      some (Except.ok (toStringPretty outs ++ ['\n'])) := by
    simp [run_app, hv, hdec, hout', hjson]
  rw [this, hrun]

def cliJsonW : CliProblemApp :=
  ⟨"x.json".data, ["deprecated".data], [], false, false, true⟩

def jW : JsonValue := JsonValue.arr [JsonValue.obj
  [(resourceKey, JsonValue.str "a/test.java".data),
   (startLineKey, JsonValue.num 1),
   (messageKey, JsonValue.str "This is deprecated".data)]]

def psW : List Problem :=
  [⟨"a/test.java".data, 1, "This is deprecated".data, JsonValue.obj []⟩]

def outsW : List ProblemOutput :=
  [⟨"test.java".data, "This is deprecated".data, 1⟩]

/-- Witness for `run_app_json_branch` on the spec's end-to-end JSON
example. -/
theorem run_app_json_branch_witness :
    run_app cliJsonW (Except.ok jW) =
      some (Except.ok (toStringPretty outsW ++ ['\n'])) ∧
    run_app { cliJsonW with count_only := true } (Except.ok jW) =
      run_app cliJsonW (Except.ok jW) :=
  ⟨(run_app_json_branch cliJsonW jW psW outsW rfl rfl rfl rfl).1,
   (run_app_json_branch cliJsonW jW psW outsW rfl rfl rfl rfl).2 true⟩

theorem collectOutputs_forall₂ (l : List Problem) (outs : List ProblemOutput)
    (h : collectOutputs l = some outs) :
    List.Forall₂ (fun p o => ProblemOutput.new p = some o) l outs := by
  induction l generalizing outs with
  | nil =>
    simp only [collectOutputs, Option.some.injEq] at h
    subst h
    exact List.Forall₂.nil
  | cons p ps ih =>
    simp only [collectOutputs] at h
    cases h1 : ProblemOutput.new p <;> rw [h1] at h
    · simp at h
    · cases h2 : collectOutputs ps <;> rw [h2] at h
      · simp at h
      · simp only [Option.some.injEq] at h
        subst h
        exact List.Forall₂.cons h1 (ih _ h2)

/-- C8: the survivor sequence is exactly the input records satisfying
the predicate, in their original relative order, each mapped through
the transform: the filtered list is a sublist (order-preserving
selection) of the input, its membership is exactly "was in the input
and satisfies the predicate", and the collected outputs correspond
pointwise, in order, to the filtered records through
`ProblemOutput::new`. -/
theorem filtered_survivors_order (cli : CliProblemApp) (ps : List Problem)
    (outs : List ProblemOutput)
    (h : collectOutputs (ps.filter cli.filter_problem) = some outs) :
    List.Forall₂ (fun p o => ProblemOutput.new p = some o)
      (ps.filter cli.filter_problem) outs ∧
    List.Sublist (ps.filter cli.filter_problem) ps ∧
    (∀ p, p ∈ ps.filter cli.filter_problem ↔ p ∈ ps ∧ cli.filter_problem p = true) :=
  ⟨collectOutputs_forall₂ _ _ h, List.filter_sublist ps, fun _ => List.mem_filter⟩

/-- A two-record input of which only the first survives `cliJsonW`. -/
def psW2 : List Problem :=
  psW ++ [⟨"b.java".data, 2, "no match".data, JsonValue.obj []⟩]

/-- Witness for `filtered_survivors_order` on a two-record input where
only the first record survives. -/
theorem filtered_survivors_order_witness :
    List.Forall₂ (fun p o => ProblemOutput.new p = some o)
      (List.filter (CliProblemApp.filter_problem cliJsonW) psW2) outsW ∧
    List.Sublist (List.filter (CliProblemApp.filter_problem cliJsonW) psW2) psW2 ∧
    (∀ p, p ∈ List.filter (CliProblemApp.filter_problem cliJsonW) psW2 ↔
      p ∈ psW2 ∧ CliProblemApp.filter_problem cliJsonW p = true) :=
  filtered_survivors_order cliJsonW psW2 outsW rfl

/-- Records equal on the three decoded fields — they may differ only in
the opaque `_other` blob of extra JSON fields. -/
def coreEq (p q : Problem) : Prop :=
  p.resource = q.resource ∧ p.start_line_number = q.start_line_number ∧
  p.message = q.message

/-- Field lookup on an arbitrary JSON value (`none` off objects). -/
def jsonGet (key : List Char) (j : JsonValue) : Option JsonValue :=
  match j with
  | JsonValue.obj fields => getField key fields
  | _ => none

/-- Two document elements that agree on `resource`, `startLineNumber`
and `message` — i.e. differ only in additional JSON fields. -/
def jsonCoreEq (e1 e2 : JsonValue) : Prop :=
  jsonGet resourceKey e1 = jsonGet resourceKey e2 ∧
  jsonGet startLineKey e1 = jsonGet startLineKey e2 ∧
  jsonGet messageKey e1 = jsonGet messageKey e2

theorem decodeProblem_fields (e : JsonValue) (p : Problem)
    (h : decodeProblem e = some p) :
    jsonGet resourceKey e = some (JsonValue.str p.resource) ∧
    jsonGet messageKey e = some (JsonValue.str p.message) ∧
    ∃ n : Int, jsonGet startLineKey e = some (JsonValue.num n) ∧ 0 ≤ n ∧
      p.start_line_number = n.toNat := by
  cases e with
  | obj fields =>
    simp only [decodeProblem] at h
    split at h
    next r n m h1 h2 h3 =>
      split at h
      next hb =>
        simp only [Option.some.injEq] at h
        subst h
        exact ⟨by simp [jsonGet, h1], by simp [jsonGet, h3],
          n, by simp [jsonGet, h2], hb.1, rfl⟩
      next => simp at h
    next => simp at h
  | null => simp [decodeProblem] at h
  | bool b => simp [decodeProblem] at h
  | num n => simp [decodeProblem] at h
  | str s => simp [decodeProblem] at h
  | arr es => simp [decodeProblem] at h

theorem decodeProblem_coreEq (e1 e2 : JsonValue) (p1 p2 : Problem)
    (h1 : decodeProblem e1 = some p1) (h2 : decodeProblem e2 = some p2)
    (hc : jsonCoreEq e1 e2) : coreEq p1 p2 := by
  obtain ⟨hr1, hm1, n1, hs1, hn1, he1⟩ := decodeProblem_fields _ _ h1
  obtain ⟨hr2, hm2, n2, hs2, hn2, he2⟩ := decodeProblem_fields _ _ h2
  obtain ⟨hcr, hcs, hcm⟩ := hc
  rw [hr1, hr2] at hcr
  rw [hs1, hs2] at hcs
  rw [hm1, hm2] at hcm
  simp only [Option.some.injEq, JsonValue.str.injEq, JsonValue.num.injEq]
    at hcr hcs hcm
  exact ⟨hcr, by rw [he1, he2, hcs], hcm⟩

theorem filter_problem_coreEq (cli : CliProblemApp) (p q : Problem)
    (h : coreEq p q) : cli.filter_problem p = cli.filter_problem q := by
  unfold CliProblemApp.filter_problem
  rw [h.2.2]

theorem problem_output_new_coreEq (p q : Problem) (h : coreEq p q) :
    ProblemOutput.new p = ProblemOutput.new q := by
  unfold ProblemOutput.new
  rw [h.1, h.2.1, h.2.2]

theorem decodeProblemList_coreEq (es1 es2 : List JsonValue)
    (hc : List.Forall₂ jsonCoreEq es1 es2) (ps1 ps2 : List Problem)
    (h1 : decodeProblemList es1 = some ps1)
    (h2 : decodeProblemList es2 = some ps2) :
    List.Forall₂ coreEq ps1 ps2 := by
  induction hc generalizing ps1 ps2 with
  | nil =>
    simp only [decodeProblemList, Option.some.injEq] at h1 h2
    subst h1
    subst h2
    exact List.Forall₂.nil
  | cons he hes ih =>
    rename_i e1 e2 es1' es2'
    simp only [decodeProblemList] at h1 h2
    cases hd1 : decodeProblem e1 <;> rw [hd1] at h1
    · simp at h1
    cases tl1 : decodeProblemList es1' <;> rw [tl1] at h1
    · simp at h1
    cases hd2 : decodeProblem e2 <;> rw [hd2] at h2
    · simp at h2
    cases tl2 : decodeProblemList es2' <;> rw [tl2] at h2
    · simp at h2
    simp only [Option.some.injEq] at h1 h2
    subst h1
    subst h2
    exact List.Forall₂.cons (decodeProblem_coreEq _ _ _ _ hd1 hd2 he) (ih _ _ tl1 tl2)

theorem filter_coreEq (cli : CliProblemApp) (ps1 ps2 : List Problem)
    (h : List.Forall₂ coreEq ps1 ps2) :
    List.Forall₂ coreEq (ps1.filter cli.filter_problem)
      (ps2.filter cli.filter_problem) := by
  induction h with
  | nil => exact List.Forall₂.nil
  | cons hpq hrest ih =>
    rename_i p q ps qs
    rw [List.filter_cons, List.filter_cons, filter_problem_coreEq cli p q hpq]
    cases cli.filter_problem q with
    | true => simpa using List.Forall₂.cons hpq ih
    | false => simpa using ih

theorem collectOutputs_coreEq (ps1 ps2 : List Problem)
    (h : List.Forall₂ coreEq ps1 ps2) :
    collectOutputs ps1 = collectOutputs ps2 := by
  induction h with
  | nil => rfl
  | cons hpq hrest ih =>
    rename_i p q ps qs
    simp only [collectOutputs, problem_output_new_coreEq p q hpq, ih]

/-- C9: two successfully-decoding documents whose elements differ only
in additional JSON fields beyond `resource`, `startLineNumber` and
`message` produce identical results under every CLI setting: the
extra fields are captured into the opaque `_other` blob by the decoder
but never influence the filter decision, the transform, or either
rendering. -/
theorem run_app_extra_fields_ignored (cli : CliProblemApp)
    (es1 es2 : List JsonValue)
    (hc : List.Forall₂ jsonCoreEq es1 es2)
    (h1 : (decodeProblems (JsonValue.arr es1)).isSome = true)
    (h2 : (decodeProblems (JsonValue.arr es2)).isSome = true) :
    run_app cli (Except.ok (JsonValue.arr es1)) =
      run_app cli (Except.ok (JsonValue.arr es2)) := by
  cases hp1 : decodeProblems (JsonValue.arr es1) with
  | none => rw [hp1] at h1; simp at h1
  | some ps1 =>
  cases hp2 : decodeProblems (JsonValue.arr es2) with
  | none => rw [hp2] at h2; simp at h2
  | some ps2 =>
  have hcore : List.Forall₂ coreEq ps1 ps2 :=
    decodeProblemList_coreEq es1 es2 hc ps1 ps2
      (by simpa [decodeProblems] using hp1)
      (by simpa [decodeProblems] using hp2)
  have hlen : ps1.length = ps2.length := hcore.length_eq
  have hcoll : collectOutputs (ps1.filter cli.filter_problem) =
      collectOutputs (ps2.filter cli.filter_problem) :=
    collectOutputs_coreEq _ _ (filter_coreEq cli ps1 ps2 hcore)
  simp only [run_app, hp1, hp2, hcoll, hlen]

/-- The single-record document used by the C9 witness, carrying an
extra `severity` field. -/
def esW1 : List JsonValue := [JsonValue.obj
  [(resourceKey, JsonValue.str "a/test.java".data),
   (startLineKey, JsonValue.num 1),
   (messageKey, JsonValue.str "This is deprecated".data),
   ("severity".data, JsonValue.num 2)]]

/-- The same document without the extra field. -/
def esW2 : List JsonValue := [JsonValue.obj
  [(resourceKey, JsonValue.str "a/test.java".data),
   (startLineKey, JsonValue.num 1),
   (messageKey, JsonValue.str "This is deprecated".data)]]

/-- Witness for `run_app_extra_fields_ignored`: an extra `severity`
field does not change the output. -/
theorem run_app_extra_fields_ignored_witness :
    run_app cliJsonW (Except.ok (JsonValue.arr esW1)) =
      run_app cliJsonW (Except.ok (JsonValue.arr esW2)) :=
  run_app_extra_fields_ignored cliJsonW esW1 esW2
    (List.Forall₂.cons ⟨rfl, rfl, rfl⟩ List.Forall₂.nil) rfl rfl
